import Mathlib

/-!
Verification of the GC-content analyzer core logic.

Shallow embedding of the two Python source files:
  * `gc_content.py` : `read_sequences`, `gc_content`, and the CLI `main` pipeline;
  * `app.py`        : `clean_header`, `parse_fasta`, `submit_sequences` (pasted-text
                      path, both FASTA and comma grammars), the uploaded-file path,
                      and the results/summary aggregation block.

Text is modelled as `List Char`.  Python string operations (`strip`, `upper`,
`split`, `splitlines`, `replace`, `count`) are embedded as executable functions
on character lists; `.upper()` is modelled on the basic-latin range (the only
range exercised by this program's ASCII inputs), matching `Char.toUpper`.
Python's `/`, which raises `ZeroDivisionError` on a zero denominator, is
embedded as `pydiv` returning `Except`; arithmetic on percentages uses `ℚ`.
-/

/-- Characters treated as whitespace by Python's `str.strip()` / `str.split()`. -/
def pyIsSpace (c : Char) : Bool :=
  c == ' ' || c == '\t' || c == '\n' || c == '\r' || c == '\x0b' || c == '\x0c'

/-- Python `str.upper()`, per character (basic-latin range, as exercised here). -/
def pyUpper (c : Char) : Char :=
  c.toUpper

/-- Python `str.upper()` on a whole string. -/
def upperStr (s : List Char) : List Char :=
  s.map pyUpper

/-- Python `str.lstrip()`. -/
def pyStripL (s : List Char) : List Char :=
  s.dropWhile pyIsSpace

/-- Python `str.rstrip()` (`rdropWhile p s` is `(s.reverse.dropWhile p).reverse`). -/
def pyStripR (s : List Char) : List Char :=
  s.rdropWhile pyIsSpace

/-- Python `str.strip()`. -/
def pyStrip (s : List Char) : List Char :=
  pyStripR (pyStripL s)

/-- Split a character list on a separator character (Python `str.split(sep)`).
The result always has one more entry than the number of separators. -/
def splitOnChar (sep : Char) : List Char → List (List Char)
  | [] => [[]]
  | c :: cs =>
    if c == sep then [] :: splitOnChar sep cs
    else
      match splitOnChar sep cs with
      | [] => [[c]]
      | l :: ls => (c :: l) :: ls

/-- Python `str.split()` (no argument): split on whitespace runs, dropping
empty pieces.  Auxiliary accumulator form. -/
def wsSplitAux (acc : List Char) : List Char → List (List Char)
  | [] => if acc.isEmpty then [] else [acc.reverse]
  | c :: cs =>
    if pyIsSpace c then
      if acc.isEmpty then wsSplitAux [] cs else acc.reverse :: wsSplitAux [] cs
    else wsSplitAux (c :: acc) cs

/-- Python `str.split()` (whitespace splitting). -/
def wsSplit (s : List Char) : List (List Char) :=
  wsSplitAux [] s

/-- Does the line start with `>` (Python `line.startswith('>')`)? -/
def startsGt (l : List Char) : Bool :=
  match l with
  | [] => false
  | c :: _ => c == '>'

/-- `line.replace(" ", "").replace("\n", "")` from `app.py`. -/
def removeSpaces (l : List Char) : List Char :=
  (l.filter (fun c => !(c == ' '))).filter (fun c => !(c == '\n'))

/-- `clean_header` from `app.py`: first word of the FASTA header.  The source
is `header.split()[0].strip()` guarded by `if not header: return header`; the
`[0]` index is total here via `headD` (unreachable default: the caller only
passes stripped non-empty headers, whose split is non-empty). -/
def cleanHeader (h : List Char) : List Char :=
  if h.isEmpty then h else pyStrip ((wsSplit h).headD [])

/-- The flush of `parse_fasta`: emit `(clean_header(header),
"".join(seq_lines).upper())` when both `header` and `seq_lines` are non-empty
(Python truthiness of the string and of the list). -/
def flushC (header : Option (List Char)) (sl : List (List Char)) :
    List (List Char × List Char) :=
  match header with
  | some h => if !h.isEmpty && !sl.isEmpty then [(cleanHeader h, upperStr sl.flatten)] else []
  | none => []

/-- The same flush with the *full* (untruncated) header, for comparison. -/
def flushFull (header : Option (List Char)) (sl : List (List Char)) :
    List (List Char × List Char) :=
  match header with
  | some h => if !h.isEmpty && !sl.isEmpty then [(h, upperStr sl.flatten)] else []
  | none => []

/-- The loop of `parse_fasta` from `app.py`, carrying the current `header`
(`none` before any `>` line) and accumulated `seq_lines`.  Each line is
stripped; blank lines are skipped; a `>` line flushes and sets
`header = line[1:].strip()`; other lines append
`line.replace(" ", "").replace("\n", "")`. -/
def parseFastaAuxC : List (List Char) → Option (List Char) → List (List Char) →
    List (List Char × List Char)
  | [], header, sl => flushC header sl
  | l :: ls, header, sl =>
    if (pyStrip l).isEmpty then parseFastaAuxC ls header sl
    else if startsGt (pyStrip l) then
      flushC header sl ++ parseFastaAuxC ls (some (pyStrip ((pyStrip l).drop 1))) []
    else parseFastaAuxC ls header (sl ++ [removeSpaces (pyStrip l)])

/-- `parse_fasta` from `app.py`: `lines = text.strip().splitlines()`, then the
per-line loop (per-line `strip`, blank lines skipped), with a trailing flush. -/
def parseFasta (t : List Char) : List (List Char × List Char) :=
  parseFastaAuxC (splitOnChar '\n' (pyStrip t)) none []

/-- Reference variant of the `parse_fasta` loop that emits the *full* header
instead of `clean_header(header)`; used to state how names relate to headers. -/
def parseFastaFullAux : List (List Char) → Option (List Char) → List (List Char) →
    List (List Char × List Char)
  | [], header, sl => flushFull header sl
  | l :: ls, header, sl =>
    if (pyStrip l).isEmpty then parseFastaFullAux ls header sl
    else if startsGt (pyStrip l) then
      flushFull header sl ++ parseFastaFullAux ls (some (pyStrip ((pyStrip l).drop 1))) []
    else parseFastaFullAux ls header (sl ++ [removeSpaces (pyStrip l)])

/-- `parse_fasta` with full (untruncated) headers. -/
def parseFastaFull (t : List Char) : List (List Char × List Char) :=
  parseFastaFullAux (splitOnChar '\n' (pyStrip t)) none []

/-- The loop of `read_sequences` from `gc_content.py`, carrying `header`
(`None` initially) and `current_seq`.  Each line is stripped; blank lines are
skipped; a `>` line flushes a pending non-empty `current_seq` and sets
`header = line[1:]` (not re-stripped, full header kept); other lines append
`line.upper()`.  A trailing non-empty `current_seq` is flushed at end of file. -/
def readSeqAux : List (List Char) → Option (List Char) → List Char →
    List (Option (List Char) × List Char)
  | [], header, cur => if !cur.isEmpty then [(header, cur)] else []
  | l :: ls, header, cur =>
    if (pyStrip l).isEmpty then readSeqAux ls header cur
    else if startsGt (pyStrip l) then
      (if !cur.isEmpty then [(header, cur)] else []) ++
        readSeqAux ls (some ((pyStrip l).drop 1)) []
    else readSeqAux ls header (cur ++ upperStr (pyStrip l))

/-- `read_sequences` from `gc_content.py` applied to the text content of the
file (file I/O itself is outside the embedding; lines are `'\n'`-separated). -/
def readSequences (t : List Char) : List (Option (List Char) × List Char) :=
  readSeqAux (splitOnChar '\n' t) none []

/-- `all(base in "ATGC" for base in seq)` / `set(seq).issubset(set("ATGC"))`. -/
def isValidSeq (s : List Char) : Bool :=
  s.all (fun c => c == 'A' || c == 'T' || c == 'G' || c == 'C')

/-- The per-record validation loop shared by `submit_sequences`' FASTA branch
and the uploaded-file branch of `app.py`: valid records are kept in order;
non-empty invalid records are reported by name; empty records fall through. -/
def validateRecords : List (List Char × List Char) →
    List (List Char × List Char) × List (List Char)
  | [] => ([], [])
  | (h, s) :: rest =>
    if !s.isEmpty && isValidSeq s then
      ((h, s) :: (validateRecords rest).1, (validateRecords rest).2)
    else if !s.isEmpty then ((validateRecords rest).1, h :: (validateRecords rest).2)
    else validateRecords rest

/-- Decimal digits of a natural number (Python f-string rendering of `i`). -/
def natChars (n : ℕ) : List Char :=
  (Nat.repr n).data

/-- Synthesized name `Sequence_<i>` used for valid comma-separated pieces. -/
def seqUName (i : ℕ) : List Char :=
  "Sequence_".data ++ natChars i

/-- Identifier `Sequence <i>` used in warnings/default names. -/
def seqWName (i : ℕ) : List Char :=
  "Sequence ".data ++ natChars i

/-- The comma-grammar list comprehension of `submit_sequences`:
`[seq.strip().replace(" ", "").replace("\n", "") for seq in text.split(",") if seq.strip()]`. -/
def commaPieces (text : List Char) : List (List Char) :=
  ((splitOnChar ',' text).filter (fun p => !(pyStrip p).isEmpty)).map
    (fun p => removeSpaces (pyStrip p))

/-- The `enumerate(sequences_list, start=1)` loop of the comma branch. -/
def commaSubmitAux (i : ℕ) : List (List Char) →
    List (List Char × List Char) × List (List Char)
  | [] => ([], [])
  | s :: rest =>
    if !s.isEmpty && isValidSeq s then
      ((seqUName i, s) :: (commaSubmitAux (i + 1) rest).1, (commaSubmitAux (i + 1) rest).2)
    else if !s.isEmpty then
      ((commaSubmitAux (i + 1) rest).1, seqWName i :: (commaSubmitAux (i + 1) rest).2)
    else commaSubmitAux (i + 1) rest

/-- The comma (non-FASTA) branch of `submit_sequences`. -/
def commaSubmit (text : List Char) : List (List Char × List Char) × List (List Char) :=
  commaSubmitAux 1 (commaPieces text)

/-- `submit_sequences` from `app.py` (pasted-text path): the input is stripped
and upper-cased, then dispatched on a leading `>` to the FASTA grammar with
validation, or to the comma grammar.  Returns (valid records, reported names). -/
def submitSequences (raw : List Char) : List (List Char × List Char) × List (List Char) :=
  if startsGt (upperStr (pyStrip raw)) then
    validateRecords (parseFasta (upperStr (pyStrip raw)))
  else commaSubmit (upperStr (pyStrip raw))

/-- The uploaded-file processing block of `app.py`: the decoded file content is
passed to `parse_fasta` and the same per-record validation. -/
def uploadProcess (content : List Char) : List (List Char × List Char) × List (List Char) :=
  validateRecords (parseFasta content)

/-- Spec-side helper: the first whitespace-delimited token of a string
(written from the spec's words for comparison with `cleanHeader`). -/
def firstTokenSpec (h : List Char) : List Char :=
  (h.dropWhile pyIsSpace).takeWhile (fun c => !pyIsSpace c)

/-- Spec-side helper: pair each piece with its 1-based position in the given
list (written from the spec's words on `Sequence_<n>` numbering). -/
def numberFromSpec (i : ℕ) : List (List Char) → List (ℕ × List Char)
  | [] => []
  | p :: ps => (i, p) :: numberFromSpec (i + 1) ps

/-- `sequence.count('G') + sequence.count('C')`. -/
def gcCount (s : List Char) : ℕ :=
  s.count 'G' + s.count 'C'

/-- Python `/` on rationals: raises `ZeroDivisionError` on a zero denominator. -/
def pydiv (a b : ℚ) : Except String ℚ :=
  if b = 0 then Except.error "ZeroDivisionError" else Except.ok (a / b)

/-- `gc_content` from `gc_content.py`:
`(gc_count / len(sequence)) * 100 if len(sequence) > 0 else 0`,
with the division embedded as the fallible `pydiv`. -/
def gc_content (s : List Char) : Except String ℚ :=
  if 0 < s.length then Except.map (fun q => q * 100) (pydiv (gcCount s) s.length)
  else Except.ok 0

/-- The (always-reached) pure value of `gc_content`, used by the callers. -/
def gcPercent (s : List Char) : ℚ :=
  if 0 < s.length then ((gcCount s : ℚ) / (s.length : ℚ)) * 100 else 0

/-- One result row: `(name, len(seq), gc)`. -/
abbrev ResultRow := List Char × ℕ × ℚ

/-- The results-building loop of `app.py` (lines 286-295): empty sequences are
skipped, each remaining record yields `(name, len(seq), gc_content(seq))`. -/
def buildResults (seqs : List (List Char × List Char)) : List ResultRow :=
  seqs.filterMap (fun p => if p.2.isEmpty then none else some (p.1, p.2.length, gcPercent p.2))

/-- Python `min(list)` on a non-empty list (default 0 in the unreachable empty case). -/
def listMin : List ℚ → ℚ
  | [] => 0
  | x :: xs => xs.foldl min x

/-- Python `max(list)` on a non-empty list (default 0 in the unreachable empty case). -/
def listMax : List ℚ → ℚ
  | [] => 0
  | x :: xs => xs.foldl max x

/-- Outcome of the results block of `app.py`: either the explicit
"all sequences skipped" error state, or rows plus summary statistics. -/
inductive AppOutcome where
  | noResults : AppOutcome
  | stats : List ResultRow → ℚ → ℚ → ℚ → AppOutcome
deriving DecidableEq

/-- `gc_values = [gc for _, _, gc in results]`. -/
def gcValues (rows : List ResultRow) : List ℚ :=
  rows.map (fun x => x.2.2)

/-- The results/summary block of `app.py` (lines 284-307): build rows, show the
"no results" error if the row set is empty, otherwise compute
`min(gc_values), max(gc_values), sum(gc_values)/len(gc_values)`
(the average's division embedded as `pydiv`). -/
def aggregate (seqs : List (List Char × List Char)) : Except String AppOutcome :=
  if (buildResults seqs).isEmpty then Except.ok AppOutcome.noResults
  else
    Except.map
      (fun avg => AppOutcome.stats (buildResults seqs)
        (listMin (gcValues (buildResults seqs))) (listMax (gcValues (buildResults seqs))) avg)
      (pydiv ((gcValues (buildResults seqs)).sum) ((gcValues (buildResults seqs)).length))

/-- `header if header else f"Sequence {i}"` from `gc_content.py` `main`. -/
def cliDisplayName (hdr : Option (List Char)) (i : ℕ) : List Char :=
  match hdr with
  | some h => if h.isEmpty then seqWName i else h
  | none => seqWName i

/-- The per-sequence loop of `gc_content.py` `main` (lines 61-67), with
`enumerate(sequences, start=1)`: a warning is recorded when the sequence has a
character outside ATGC, and a result row is appended *unconditionally*. -/
def cliProcessAux (i : ℕ) : List (Option (List Char) × List Char) →
    List ResultRow × List (List Char)
  | [] => ([], [])
  | (hdr, seq) :: rest =>
    ((cliDisplayName hdr i, seq.length, gcPercent seq) :: (cliProcessAux (i + 1) rest).1,
     if isValidSeq seq then (cliProcessAux (i + 1) rest).2
     else cliDisplayName hdr i :: (cliProcessAux (i + 1) rest).2)

/-- The per-sequence loop of `gc_content.py` `main`, from index 1. -/
def cliProcess (seqs : List (Option (List Char) × List Char)) :
    List ResultRow × List (List Char) :=
  cliProcessAux 1 seqs

/-- Outcome of `gc_content.py` `main` after a successful file read. -/
inductive CliOutcome where
  | noSequences : CliOutcome
  | report : List ResultRow → List (List Char) → Option (ℚ × ℚ × ℚ) → CliOutcome
deriving DecidableEq

/-- `gc_content.py` `main` after `read_sequences` succeeds: empty parses stop
with "No valid sequences found."; otherwise rows and warnings are produced and
the summary (min/max/average, the average via `pydiv`) is computed only under
the `if results:` guard. -/
def cliRun (seqs : List (Option (List Char) × List Char)) : Except String CliOutcome :=
  if seqs.isEmpty then Except.ok CliOutcome.noSequences
  else if ((cliProcess seqs).1).isEmpty then
    Except.ok (CliOutcome.report (cliProcess seqs).1 (cliProcess seqs).2 none)
  else
    Except.map
      (fun avg => CliOutcome.report (cliProcess seqs).1 (cliProcess seqs).2
        (some (listMin (gcValues (cliProcess seqs).1),
               listMax (gcValues (cliProcess seqs).1), avg)))
      (pydiv ((gcValues (cliProcess seqs).1).sum) ((gcValues (cliProcess seqs).1).length))

/-! ## Character-level lemmas -/

theorem char_toNat_ofNat {n : ℕ} (h : n < 55296) : (Char.ofNat n).toNat = n := by
  rw [Char.ofNat, dif_pos (Or.inl h)]
  rfl

theorem char_eq_of_toNat_eq {c d : Char} (h : c.toNat = d.toNat) : c = d := by
  have hc := Char.ofNat_toNat c
  have hd := Char.ofNat_toNat d
  rw [← hc, ← hd, h]

theorem pyUpper_eq_of_not_lower {c : Char} (h : ¬(97 ≤ c.toNat ∧ c.toNat ≤ 122)) :
    pyUpper c = c := by
  simp only [pyUpper, Char.toUpper]
  exact if_neg h

theorem pyUpper_toNat_of_lower {c : Char} (h1 : 97 ≤ c.toNat) (h2 : c.toNat ≤ 122) :
    (pyUpper c).toNat = c.toNat - 32 := by
  simp only [pyUpper, Char.toUpper]
  rw [if_pos ⟨h1, h2⟩]
  exact char_toNat_ofNat (by omega)

theorem pyUpper_cases (c : Char) :
    pyUpper c = c ∨
      (97 ≤ c.toNat ∧ c.toNat ≤ 122 ∧ 65 ≤ (pyUpper c).toNat ∧ (pyUpper c).toNat ≤ 90) := by
  by_cases h : 97 ≤ c.toNat ∧ c.toNat ≤ 122
  · right
    have h3 := pyUpper_toNat_of_lower h.1 h.2
    exact ⟨h.1, h.2, by omega, by omega⟩
  · exact Or.inl (pyUpper_eq_of_not_lower h)

theorem pyUpper_idem (c : Char) : pyUpper (pyUpper c) = pyUpper c := by
  rcases pyUpper_cases c with h | h
  · rw [h, h]
  · exact pyUpper_eq_of_not_lower (by omega)

theorem pyUpper_eq_iff_of_lt {c d : Char} (hd : d.toNat < 65) : pyUpper c = d ↔ c = d := by
  constructor
  · intro h
    rcases pyUpper_cases c with h2 | h2
    · rwa [h2] at h
    · have h3 : (pyUpper c).toNat = d.toNat := by rw [h]
      omega
  · intro h
    subst h
    exact pyUpper_eq_of_not_lower (by omega)

theorem pyIsSpace_eq_false_of_ge {c : Char} (h : 33 ≤ c.toNat) : pyIsSpace c = false := by
  have key : ∀ d : Char, d.toNat < 33 → (c == d) = false := by
    intro d hd
    rw [beq_eq_false_iff_ne]
    intro h2
    subst h2
    omega
  simp only [pyIsSpace, key ' ' (by decide), key '\t' (by decide), key '\n' (by decide),
    key '\r' (by decide), key '\x0b' (by decide), key '\x0c' (by decide), Bool.or_false]

theorem pyIsSpace_pyUpper (c : Char) : pyIsSpace (pyUpper c) = pyIsSpace c := by
  rcases pyUpper_cases c with h | h
  · rw [h]
  · rw [pyIsSpace_eq_false_of_ge (by omega), pyIsSpace_eq_false_of_ge (by omega)]

/-! ## GC computation: C2 and C3 -/

/-- C2: for every non-empty string `s` over {A, T, G, C}, `gc_content s`
returns exactly `100 * (count of G + count of C) / length s`. -/
theorem claim2_gc_formula (s : List Char) (h1 : s ≠ [])
    (h2 : ∀ c ∈ s, c = 'A' ∨ c = 'T' ∨ c = 'G' ∨ c = 'C') :
    gc_content s =
      Except.ok (100 * ((s.count 'G' : ℚ) + (s.count 'C' : ℚ)) / (s.length : ℚ)) := by
  have hl : 0 < s.length := List.length_pos.mpr h1
  have hl2 : ((s.length : ℚ)) ≠ 0 := Nat.cast_ne_zero.mpr (by omega)
  simp only [gc_content, if_pos hl, pydiv, if_neg hl2, Except.map]
  congr 1
  simp only [gcCount]
  push_cast
  ring

/-- Witness for C2 at `s = "GGAT"`. -/
theorem claim2_witness :
    gc_content "GGAT".data =
      Except.ok (100 * (("GGAT".data.count 'G' : ℚ) + ("GGAT".data.count 'C' : ℚ)) /
        ("GGAT".data.length : ℚ)) :=
  claim2_gc_formula "GGAT".data (by decide) (by decide)

/-- C3: `gc_content` of the empty string is exactly `0` (via the explicit
length guard, not a division error), and `gc_content` is total: on every
input it returns a value and never a `ZeroDivisionError`. -/
theorem claim3_empty_guard_total :
    gc_content [] = Except.ok 0 ∧ ∀ s : List Char, ∃ v : ℚ, gc_content s = Except.ok v := by
  refine ⟨rfl, fun s => ?_⟩
  by_cases h : 0 < s.length
  · have hl2 : ((s.length : ℚ)) ≠ 0 := Nat.cast_ne_zero.mpr (by omega)
    exact ⟨(gcCount s : ℚ) / (s.length : ℚ) * 100, by
      simp only [gc_content, if_pos h, pydiv, if_neg hl2, Except.map]⟩
  · exact ⟨0, by simp only [gc_content, if_neg h]⟩

/-! ## Aggregation guards: C8 -/

/-- C8: aggregating zero rows yields the explicit "no data" outcome in both
the web app (empty `results` shows the error state) and the CLI (empty parse
prints "No valid sequences found."), and the min/max/average computation never
runs on an empty row set, so no division error can occur: both pipelines are
total. -/
theorem claim8_no_data_guard :
    (∀ seqs, buildResults seqs = [] → aggregate seqs = Except.ok AppOutcome.noResults) ∧
    (∀ seqs, ∃ o, aggregate seqs = Except.ok o) ∧
    cliRun [] = Except.ok CliOutcome.noSequences ∧
    (∀ seqs, ∃ o, cliRun seqs = Except.ok o) := by
  have hagg : ∀ seqs, ∃ o, aggregate seqs = Except.ok o := by
    intro seqs
    by_cases h : (buildResults seqs).isEmpty
    · exact ⟨AppOutcome.noResults, by simp only [aggregate, if_pos h]⟩
    · have hne : buildResults seqs ≠ [] := by
        simpa [List.isEmpty_iff] using h
      have hlen : ((gcValues (buildResults seqs)).length : ℚ) ≠ 0 := by
        have : (gcValues (buildResults seqs)).length ≠ 0 := by
          simp only [gcValues, List.length_map]
          exact fun h0 => hne (List.length_eq_zero.mp h0)
        exact Nat.cast_ne_zero.mpr this
      refine ⟨AppOutcome.stats (buildResults seqs)
        (listMin (gcValues (buildResults seqs))) (listMax (gcValues (buildResults seqs)))
        ((gcValues (buildResults seqs)).sum / ((gcValues (buildResults seqs)).length : ℚ)), ?_⟩
      simp only [aggregate, if_neg h, pydiv, if_neg hlen, Except.map]
  refine ⟨?_, hagg, rfl, ?_⟩
  · intro seqs h
    simp only [aggregate, h, List.isEmpty_nil, if_pos]
  · intro seqs
    by_cases h0 : seqs.isEmpty
    · exact ⟨CliOutcome.noSequences, by simp only [cliRun, if_pos h0]⟩
    · by_cases h1 : ((cliProcess seqs).1).isEmpty
      · exact ⟨CliOutcome.report (cliProcess seqs).1 (cliProcess seqs).2 none,
          by simp only [cliRun, if_neg h0, if_pos h1]⟩
      · have hne : (cliProcess seqs).1 ≠ [] := by
          simpa [List.isEmpty_iff] using h1
        have hlen : ((gcValues (cliProcess seqs).1).length : ℚ) ≠ 0 := by
          have : (gcValues (cliProcess seqs).1).length ≠ 0 := by
            simp only [gcValues, List.length_map]
            exact fun h2 => hne (List.length_eq_zero.mp h2)
          exact Nat.cast_ne_zero.mpr this
        refine ⟨CliOutcome.report (cliProcess seqs).1 (cliProcess seqs).2
          (some (listMin (gcValues (cliProcess seqs).1), listMax (gcValues (cliProcess seqs).1),
            (gcValues (cliProcess seqs).1).sum / ((gcValues (cliProcess seqs).1).length : ℚ))), ?_⟩
        simp only [cliRun, if_neg h0, if_neg h1, pydiv, if_neg hlen, Except.map]

/-- Witness for C8: the empty record list hits the "no data" outcome. -/
theorem claim8_witness :
    buildResults [] = [] ∧ aggregate [] = Except.ok AppOutcome.noResults :=
  ⟨rfl, claim8_no_data_guard.1 [] rfl⟩

/-! ## Strip and upper-case plumbing -/

theorem pyStrip_head_not (s : List Char) {c : Char} {cs : List Char}
    (h : pyStrip s = c :: cs) : pyIsSpace c = false := by
  obtain ⟨t, ht⟩ := List.rdropWhile_prefix (p := pyIsSpace) (l := pyStripL s)
  rw [pyStrip, pyStripR] at h
  rw [h] at ht
  have hd : s.dropWhile pyIsSpace = c :: (cs ++ t) := by
    rw [pyStripL] at ht
    rw [← ht]
    simp
  have hne : s.dropWhile pyIsSpace ≠ [] := by rw [hd]; simp
  have h2 := List.head_dropWhile_not pyIsSpace s hne
  simp only [hd, List.head_cons] at h2
  exact h2

theorem pyStripL_pyStrip (s : List Char) : pyStripL (pyStrip s) = pyStrip s := by
  cases h : pyStrip s with
  | nil => simp [pyStripL]
  | cons c cs =>
    have hc := pyStrip_head_not s h
    simp [pyStripL, List.dropWhile_cons, hc]

theorem pyStrip_idem (s : List Char) : pyStrip (pyStrip s) = pyStrip s := by
  conv_lhs => rw [pyStrip]
  rw [pyStripL_pyStrip]
  conv_lhs => rw [pyStrip, pyStripR]
  rw [pyStripR]
  exact List.rdropWhile_idempotent _ _

theorem pyIsSpace_comp_pyUpper : pyIsSpace ∘ pyUpper = pyIsSpace := by
  funext c
  exact pyIsSpace_pyUpper c

theorem pyStripL_upper (s : List Char) : pyStripL (upperStr s) = upperStr (pyStripL s) := by
  simp only [pyStripL, upperStr, List.dropWhile_map]
  rw [pyIsSpace_comp_pyUpper]

theorem pyStripR_upper (s : List Char) : pyStripR (upperStr s) = upperStr (pyStripR s) := by
  have h1 : (upperStr s).reverse = upperStr s.reverse := by
    simp only [upperStr, List.map_reverse]
  have h2 := pyStripL_upper s.reverse
  simp only [pyStripL] at h2
  simp only [pyStripR, List.rdropWhile, h1, h2]
  simp only [upperStr, List.map_reverse]

theorem pyStrip_upper (s : List Char) : pyStrip (upperStr s) = upperStr (pyStrip s) := by
  rw [pyStrip, pyStripL_upper, pyStripR_upper, pyStrip]

theorem upperStr_idem (s : List Char) : upperStr (upperStr s) = upperStr s := by
  simp only [upperStr, List.map_map]
  congr 1
  funext c
  exact pyUpper_idem c

theorem pyUpper_beq_low {c d : Char} (hd : d.toNat < 65) : (pyUpper c == d) = (c == d) := by
  by_cases h : c = d
  · subst h
    rw [(pyUpper_eq_iff_of_lt hd).mpr rfl]
  · have h2 : pyUpper c ≠ d := fun hh => h ((pyUpper_eq_iff_of_lt hd).mp hh)
    rw [beq_eq_false_iff_ne.mpr h2, beq_eq_false_iff_ne.mpr h]

theorem startsGt_upper (l : List Char) : startsGt (upperStr l) = startsGt l := by
  cases l with
  | nil => rfl
  | cons c cs =>
    simp only [startsGt, upperStr, List.map_cons]
    exact pyUpper_beq_low (by decide)

theorem removeSpaces_upper (l : List Char) :
    removeSpaces (upperStr l) = upperStr (removeSpaces l) := by
  have e1 : (fun c => !(c == ' ')) ∘ pyUpper = (fun c => !(c == ' ')) := by
    funext c
    simp only [Function.comp_apply, pyUpper_beq_low (by decide : Char.toNat ' ' < 65)]
  have e2 : (fun c => !(c == '\n')) ∘ pyUpper = (fun c => !(c == '\n')) := by
    funext c
    simp only [Function.comp_apply,
      pyUpper_beq_low (by decide : Char.toNat '\n' < 65)]
  simp only [removeSpaces, upperStr, List.filter_map, e1, e2]

theorem splitOnChar_ne_nil (sep : Char) (s : List Char) : splitOnChar sep s ≠ [] := by
  induction s with
  | nil => simp [splitOnChar]
  | cons c cs ih =>
    simp only [splitOnChar]
    by_cases h : (c == sep) = true
    · simp [h]
    · simp only [h]
      cases hs : splitOnChar sep cs with
      | nil => simp
      | cons l ls => simp

theorem splitOnChar_upper (s : List Char) :
    splitOnChar '\n' (upperStr s) = (splitOnChar '\n' s).map upperStr := by
  induction s with
  | nil => rfl
  | cons c cs ih =>
    simp only [upperStr, List.map_cons]
    simp only [splitOnChar, pyUpper_beq_low (by decide : Char.toNat '\n' < 65)]
    by_cases h : (c == '\n') = true
    · simp only [h, if_pos]
      rw [show (List.map pyUpper cs) = upperStr cs from rfl, ih]
      rfl
    · simp only [h]
      rw [show (List.map pyUpper cs) = upperStr cs from rfl, ih]
      cases hs : splitOnChar '\n' cs with
      | nil => exact absurd hs (splitOnChar_ne_nil _ _)
      | cons l ls => simp [upperStr]

theorem upperStr_isEmpty (l : List Char) : (upperStr l).isEmpty = l.isEmpty := by
  cases l <;> rfl

theorem upperStr_drop (l : List Char) (n : ℕ) :
    (upperStr l).drop n = upperStr (l.drop n) := by
  simp [upperStr, List.map_drop]

theorem upperStr_append (a b : List Char) :
    upperStr (a ++ b) = upperStr a ++ upperStr b := by
  simp [upperStr]

theorem upperStr_flatten (sl : List (List Char)) :
    (sl.map upperStr).flatten = upperStr sl.flatten := by
  induction sl with
  | nil => rfl
  | cons a as ih =>
    simp only [List.map_cons, List.flatten_cons, ih, upperStr_append]

/-! ## clean_header computes the first whitespace-delimited token -/

theorem wsSplitAux_headD_ne (cs : List Char) : ∀ acc : List Char, acc ≠ [] →
    (wsSplitAux acc cs).headD [] = acc.reverse ++ cs.takeWhile (fun c => !pyIsSpace c) := by
  induction cs with
  | nil =>
    intro acc hacc
    have h1 : acc.isEmpty = false := List.isEmpty_eq_false.mpr hacc
    simp [wsSplitAux, h1]
  | cons c cs ih =>
    intro acc hacc
    have h1 : acc.isEmpty = false := List.isEmpty_eq_false.mpr hacc
    by_cases hc : pyIsSpace c
    · simp [wsSplitAux, hc, h1, List.takeWhile_cons]
    · simp only [wsSplitAux, if_neg hc]
      rw [ih (c :: acc) (by simp)]
      simp [List.takeWhile_cons, hc]

theorem wsSplit_headD (s : List Char) :
    (wsSplit s).headD [] = (s.dropWhile pyIsSpace).takeWhile (fun c => !pyIsSpace c) := by
  rw [wsSplit]
  induction s with
  | nil => rfl
  | cons c cs ih =>
    by_cases hc : pyIsSpace c
    · simp only [wsSplitAux, if_pos hc, List.isEmpty_nil, if_pos, List.dropWhile_cons, hc]
      exact ih
    · simp only [wsSplitAux, if_neg hc, List.isEmpty_nil]
      rw [wsSplitAux_headD_ne cs [c] (by simp)]
      simp [List.dropWhile_cons, hc, List.takeWhile_cons]

theorem pyStrip_of_no_space {t : List Char} (h : ∀ c ∈ t, pyIsSpace c = false) :
    pyStrip t = t := by
  have hL : pyStripL t = t := by
    rw [pyStripL, List.dropWhile_eq_self_iff]
    intro hl
    have hf := h (t.get ⟨0, hl⟩) (List.get_mem t 0 hl)
    simp only [List.get_eq_getElem] at hf ⊢
    simp [hf]
  have hR : pyStripR t = t := by
    rw [pyStripR, List.rdropWhile_eq_self_iff]
    intro hl
    have hf := h (t.getLast hl) (List.getLast_mem hl)
    simp [hf]
  rw [pyStrip, hL, hR]

theorem cleanHeader_eq_firstTokenSpec (h : List Char) : cleanHeader h = firstTokenSpec h := by
  by_cases hh : h.isEmpty
  · have : h = [] := List.isEmpty_iff.mp hh
    subst this
    rfl
  · rw [cleanHeader, if_neg hh, wsSplit_headD]
    rw [firstTokenSpec]
    apply pyStrip_of_no_space
    intro c hc
    have := List.mem_takeWhile_imp hc
    simpa using this

theorem cleanHeader_ne_nil {h : List Char} (hne : h ≠ []) (hst : pyStrip h = h) :
    cleanHeader h ≠ [] := by
  rw [cleanHeader_eq_firstTokenSpec]
  obtain ⟨c, cs, rfl⟩ : ∃ c cs, h = c :: cs := by
    cases h with
    | nil => exact absurd rfl hne
    | cons c cs => exact ⟨c, cs, rfl⟩
  have hns := pyStrip_head_not (c :: cs) hst
  simp [firstTokenSpec, List.dropWhile_cons, hns, List.takeWhile_cons]

/-! ## Relating the two parse_fasta variants (header truncation) -/

theorem flushC_eq_map (hdr : Option (List Char)) (sl : List (List Char)) :
    flushC hdr sl = (flushFull hdr sl).map (fun p => (cleanHeader p.1, p.2)) := by
  cases hdr with
  | none => rfl
  | some h =>
    simp only [flushC, flushFull]
    split <;> simp

theorem pfc_eq_full (ls : List (List Char)) : ∀ hdr sl,
    parseFastaAuxC ls hdr sl =
      (parseFastaFullAux ls hdr sl).map (fun p => (cleanHeader p.1, p.2)) := by
  induction ls with
  | nil => intro hdr sl; exact flushC_eq_map hdr sl
  | cons l ls ih =>
    intro hdr sl
    simp only [parseFastaAuxC, parseFastaFullAux]
    by_cases h1 : (pyStrip l).isEmpty
    · simp only [if_pos h1]
      exact ih hdr sl
    · simp only [if_neg h1]
      by_cases h2 : startsGt (pyStrip l)
      · simp only [if_pos h2, List.map_append, flushC_eq_map, ih]
      · simp only [if_neg h2]
        exact ih hdr _

/-! ## Shape invariants of the emitted records -/

theorem space_not_mem_removeSpaces (l : List Char) : ' ' ∉ removeSpaces l := by
  intro h
  simp only [removeSpaces, List.mem_filter] at h
  exact absurd h.1.2 (by decide)

theorem removeSpaces_strip_ne_nil {l : List Char} (hne : pyStrip l ≠ []) :
    removeSpaces (pyStrip l) ≠ [] := by
  obtain ⟨c, cs, hc⟩ : ∃ c cs, pyStrip l = c :: cs := by
    cases h : pyStrip l with
    | nil => exact absurd h hne
    | cons c cs => exact ⟨c, cs, rfl⟩
  have hns := pyStrip_head_not l hc
  have hc1 : (c == ' ') = false := by
    rw [beq_eq_false_iff_ne]
    intro h
    subst h
    exact absurd hns (by decide)
  have hc2 : (c == '\n') = false := by
    rw [beq_eq_false_iff_ne]
    intro h
    subst h
    exact absurd hns (by decide)
  rw [hc]
  simp [removeSpaces, List.filter_cons, hc1, hc2]

theorem flushFull_mem {hdr : Option (List Char)} {sl : List (List Char)}
    (hh : ∀ h, hdr = some h → pyStrip h = h)
    (hs : ∀ ch ∈ sl, ch ≠ [] ∧ ' ' ∉ ch) :
    ∀ r ∈ flushFull hdr sl,
      r.1 ≠ [] ∧ pyStrip r.1 = r.1 ∧ r.2 ≠ [] ∧ upperStr r.2 = r.2 ∧ ' ' ∉ r.2 := by
  intro r hr
  cases hdr with
  | none => simp [flushFull] at hr
  | some h =>
    simp only [flushFull] at hr
    by_cases hcond : (!h.isEmpty && !sl.isEmpty) = true
    · rw [if_pos hcond] at hr
      rw [List.mem_singleton] at hr
      subst hr
      simp only [Bool.and_eq_true, Bool.not_eq_true'] at hcond
      have hhne : h ≠ [] := List.isEmpty_eq_false.mp hcond.1
      have hslne : sl ≠ [] := List.isEmpty_eq_false.mp hcond.2
      have hfl : sl.flatten ≠ [] := by
        intro hfl
        obtain ⟨ch, hch⟩ := List.exists_mem_of_ne_nil sl hslne
        exact absurd (List.flatten_eq_nil_iff.mp hfl ch hch) (hs ch hch).1
      refine ⟨hhne, hh h rfl, ?_, ?_, ?_⟩
      · simpa [upperStr, List.map_eq_nil_iff] using hfl
      · exact upperStr_idem _
      · intro hmem
        simp only [upperStr, List.mem_map] at hmem
        obtain ⟨c, hcmem, hcu⟩ := hmem
        have : c = ' ' := (pyUpper_eq_iff_of_lt (by decide)).mp hcu
        subst this
        obtain ⟨ch, hch, hcch⟩ := List.mem_flatten.mp hcmem
        exact (hs ch hch).2 hcch
    · rw [if_neg hcond] at hr
      simp at hr

theorem pffa_shape (ls : List (List Char)) : ∀ hdr sl,
    (∀ h, hdr = some h → pyStrip h = h) →
    (∀ ch ∈ sl, ch ≠ [] ∧ ' ' ∉ ch) →
    ∀ r ∈ parseFastaFullAux ls hdr sl,
      r.1 ≠ [] ∧ pyStrip r.1 = r.1 ∧ r.2 ≠ [] ∧ upperStr r.2 = r.2 ∧ ' ' ∉ r.2 := by
  induction ls with
  | nil => intro hdr sl hh hs r hr; exact flushFull_mem hh hs r hr
  | cons l ls ih =>
    intro hdr sl hh hs r hr
    simp only [parseFastaFullAux] at hr
    by_cases h1 : (pyStrip l).isEmpty
    · rw [if_pos h1] at hr
      exact ih hdr sl hh hs r hr
    · rw [if_neg h1] at hr
      have hlne : pyStrip l ≠ [] := by
        intro h
        exact h1 (by simp [h])
      by_cases h2 : startsGt (pyStrip l)
      · rw [if_pos h2] at hr
        rcases List.mem_append.mp hr with hr | hr
        · exact flushFull_mem hh hs r hr
        · refine ih _ [] ?_ (by simp) r hr
          intro h he
          injection he with he
          rw [← he]
          exact pyStrip_idem _
      · rw [if_neg h2] at hr
        refine ih hdr _ hh ?_ r hr
        intro ch hch
        rcases List.mem_append.mp hch with hch | hch
        · exact hs ch hch
        · rw [List.mem_singleton] at hch
          subst hch
          exact ⟨removeSpaces_strip_ne_nil hlne, space_not_mem_removeSpaces _⟩

theorem rsa_flush_mem {hdr : Option (List Char)} {cur : List Char} (hc : upperStr cur = cur) :
    ∀ r ∈ (if !cur.isEmpty then [(hdr, cur)] else []), r.2 ≠ [] ∧ upperStr r.2 = r.2 := by
  intro r hr
  by_cases h : (!cur.isEmpty) = true
  · rw [if_pos h] at hr
    rw [List.mem_singleton] at hr
    subst hr
    simp only [Bool.not_eq_true'] at h
    exact ⟨List.isEmpty_eq_false.mp h, hc⟩
  · rw [if_neg h] at hr
    simp at hr

theorem rsa_shape (ls : List (List Char)) : ∀ hdr cur, upperStr cur = cur →
    ∀ r ∈ readSeqAux ls hdr cur, r.2 ≠ [] ∧ upperStr r.2 = r.2 := by
  induction ls with
  | nil => intro hdr cur hc r hr; exact rsa_flush_mem hc r hr
  | cons l ls ih =>
    intro hdr cur hc r hr
    simp only [readSeqAux] at hr
    by_cases h1 : (pyStrip l).isEmpty
    · rw [if_pos h1] at hr
      exact ih hdr cur hc r hr
    · rw [if_neg h1] at hr
      by_cases h2 : startsGt (pyStrip l)
      · rw [if_pos h2] at hr
        rcases List.mem_append.mp hr with hr | hr
        · exact rsa_flush_mem hc r hr
        · exact ih _ [] rfl r hr
      · rw [if_neg h2] at hr
        refine ih hdr _ ?_ r hr
        rw [upperStr_append, hc, upperStr_idem]

/-! ## C4: header truncation -/

/-- C4 counterexample: on the FASTA header `>seq1 extra description`, the CLI
parser `read_sequences` emits the record name `"seq1 extra description"`, not
the first whitespace-delimited token `"seq1"`: the trailing words are *not*
discarded on this parse path. -/
theorem claim4_counterexample :
    readSequences ">seq1 extra description\nATGC".data =
      [(some "seq1 extra description".data, "ATGC".data)] ∧
    firstTokenSpec "seq1 extra description".data = "seq1".data ∧
    "seq1 extra description".data ≠ "seq1".data :=
  ⟨by decide, by decide, by decide⟩

/-- C4 (amended): in the web app's parser, `clean_header` returns exactly the
first whitespace-delimited token, and every record `parse_fasta` emits carries
`clean_header` of its full header, so trailing header words are discarded
there; the CLI parser `read_sequences`, however, keeps the entire header after
`>` as the name (trailing words retained). -/
theorem claim4_header_truncation :
    (∀ h, cleanHeader h = firstTokenSpec h) ∧
    (∀ t, parseFasta t = (parseFastaFull t).map (fun p => (cleanHeader p.1, p.2))) ∧
    readSequences ">seq1 extra description\nATGC".data =
      [(some "seq1 extra description".data, "ATGC".data)] :=
  ⟨cleanHeader_eq_firstTokenSpec, fun _ => pfc_eq_full _ none [], by decide⟩

/-! ## C5: emission requires a name and accumulated sequence lines -/

/-- C5 counterexample: `read_sequences` on the header-less input `"ATGC"`
appends a record with *no* name (`None`), refuting "a record is appended to
the parse result only if it has both a name and at least one accumulated
sequence line" for this parser. -/
theorem claim5_counterexample :
    readSequences "ATGC".data = [(none, "ATGC".data)] := by decide

/-- C5 (amended): in `parse_fasta` a record is emitted only with a non-empty
name and non-empty bases (headers with no following sequence lines are
dropped, including the trailing record); in `read_sequences` only non-empty
accumulated bases are required — the name may be absent (`None`). -/
theorem claim5_emission_rule :
    (∀ t r, r ∈ parseFasta t → r.1 ≠ [] ∧ r.2 ≠ []) ∧
    (∀ t r, r ∈ readSequences t → r.2 ≠ []) ∧
    parseFasta ">onlyheader".data = [] ∧
    readSequences ">onlyheader".data = [] := by
  refine ⟨?_, ?_, by decide, by decide⟩
  · intro t r hr
    rw [parseFasta, pfc_eq_full] at hr
    rw [List.mem_map] at hr
    obtain ⟨p, hp, rfl⟩ := hr
    have hshape := pffa_shape _ none [] (fun h he => nomatch he) (by simp) p hp
    exact ⟨cleanHeader_ne_nil hshape.1 hshape.2.1, hshape.2.2.1⟩
  · intro t r hr
    exact (rsa_shape _ none [] rfl r hr).1

/-- Witness for C5 at the spec's example input `">seq1\nATGC"`. -/
theorem claim5_witness :
    (("seq1".data, "ATGC".data) ∈ parseFasta ">seq1\nATGC".data) ∧
    (("seq1".data, "ATGC".data).1 ≠ [] ∧ ("seq1".data, "ATGC".data).2 ≠ []) :=
  ⟨by decide, claim5_emission_rule.1 ">seq1\nATGC".data ("seq1".data, "ATGC".data) (by decide)⟩

/-! ## C6: whitespace removal and upper-casing of bases -/

/-- C6 counterexample: `read_sequences` keeps *internal* whitespace: the
sequence line `AT GC` is emitted with its inner space, refuting "all internal
whitespace removed" for this parser. -/
theorem claim6_counterexample :
    readSequences ">h\nAT GC".data = [(some "h".data, "AT GC".data)] ∧
    ' ' ∈ "AT GC".data :=
  ⟨by decide, by decide⟩

/-- C6 (amended): every record's bases are upper-cased by both parsers;
`parse_fasta` also removes internal space characters from each line (newlines
cannot occur inside a line), while `read_sequences` removes only per-line
leading/trailing whitespace and keeps internal spaces. -/
theorem claim6_whitespace_policy :
    (∀ t r, r ∈ parseFasta t → upperStr r.2 = r.2 ∧ ' ' ∉ r.2) ∧
    (∀ t r, r ∈ readSequences t → upperStr r.2 = r.2) := by
  constructor
  · intro t r hr
    rw [parseFasta, pfc_eq_full] at hr
    rw [List.mem_map] at hr
    obtain ⟨p, hp, rfl⟩ := hr
    have hshape := pffa_shape _ none [] (fun h he => nomatch he) (by simp) p hp
    exact ⟨hshape.2.2.2.1, hshape.2.2.2.2⟩
  · intro t r hr
    exact (rsa_shape _ none [] rfl r hr).2

/-- Witness for C6: `parse_fasta` upper-cases `At gC` and drops its space. -/
theorem claim6_witness :
    (("seq1".data, "ATGC".data) ∈ parseFasta ">seq1\nAt gC".data) ∧
    (upperStr ("seq1".data, "ATGC".data).2 = ("seq1".data, "ATGC".data).2 ∧
      ' ' ∉ ("seq1".data, "ATGC".data).2) :=
  ⟨by decide, claim6_whitespace_policy.1 ">seq1\nAt gC".data ("seq1".data, "ATGC".data) (by decide)⟩

/-! ## C1: reporting and exclusion of invalid records -/

theorem validateRecords_valid (recs : List (List Char × List Char)) :
    ∀ r ∈ (validateRecords recs).1, isValidSeq r.2 = true := by
  induction recs with
  | nil => intro r hr; simp [validateRecords] at hr
  | cons p rest ih =>
    intro r hr
    obtain ⟨ph, ps⟩ := p
    simp only [validateRecords] at hr
    by_cases h1 : (!ps.isEmpty && isValidSeq ps) = true
    · rw [if_pos h1] at hr
      rcases List.mem_cons.mp hr with hr | hr
      · subst hr
        simp only [Bool.and_eq_true] at h1
        exact h1.2
      · exact ih r hr
    · rw [if_neg h1] at hr
      by_cases h2 : (!ps.isEmpty) = true
      · rw [if_pos h2] at hr
        exact ih r hr
      · rw [if_neg h2] at hr
        exact ih r hr

theorem validateRecords_report (recs : List (List Char × List Char)) :
    ∀ h s, (h, s) ∈ recs → s ≠ [] → isValidSeq s = false →
      h ∈ (validateRecords recs).2 := by
  induction recs with
  | nil => intro h s hr; simp at hr
  | cons p rest ih =>
    intro h s hmem hne hinv
    obtain ⟨ph, ps⟩ := p
    rcases List.mem_cons.mp hmem with heq | hmem2
    · have hh : h = ph := congrArg Prod.fst heq
      have hs : s = ps := congrArg Prod.snd heq
      subst hh
      subst hs
      have hcond1 : ¬((!s.isEmpty && isValidSeq s) = true) := by simp [hinv]
      have hcond2 : (!s.isEmpty) = true := by
        simp [List.isEmpty_eq_false.mpr hne]
      simp only [validateRecords]
      rw [if_neg hcond1, if_pos hcond2]
      exact List.mem_cons_self _ _
    · have hrest := ih h s hmem2 hne hinv
      simp only [validateRecords]
      by_cases h1 : (!ps.isEmpty && isValidSeq ps) = true
      · rw [if_pos h1]
        exact hrest
      · rw [if_neg h1]
        by_cases h2 : (!ps.isEmpty) = true
        · rw [if_pos h2]
          exact List.mem_cons_of_mem _ hrest
        · rw [if_neg h2]
          exact hrest

theorem cliProcessAux_length (seqs : List (Option (List Char) × List Char)) :
    ∀ i, ((cliProcessAux i seqs).1).length = seqs.length := by
  induction seqs with
  | nil => intro i; rfl
  | cons p rest ih =>
    intro i
    obtain ⟨hdr, sq⟩ := p
    simp only [cliProcessAux, List.length_cons, ih]

/-- C1 counterexample: in the CLI pipeline (`gc_content.py` `main`), the
record `('h', "XYZ")` contains invalid characters, is warned about, and is
*still* appended to the results used for aggregation — it contributes a
result row, refuting "it never contributes a result row" on this path. -/
theorem claim1_counterexample :
    isValidSeq "XYZ".data = false ∧
    cliProcess [(some "h".data, "XYZ".data)] = ([("h".data, 3, 0)], ["h".data]) := by
  refine ⟨by decide, ?_⟩
  have hc : gcCount "XYZ".data = 0 := by decide
  have hgc : gcPercent "XYZ".data = 0 := by simp [gcPercent, hc]
  simp [cliProcess, cliProcessAux, cliDisplayName, hgc,
    (by decide : isValidSeq "XYZ".data = false),
    (by decide : ("h".data).isEmpty = false)]

/-- C1 (amended): in the web app (`submit_sequences` and the upload path),
every parsed record with non-empty bases containing a character outside
{A,T,G,C} is excluded from the valid set and reported by name; in the CLI
`main`, such records are reported by a warning but are nevertheless included
in the results (one result row per parsed record, valid or not). -/
theorem claim1_reporting :
    (∀ recs h s, (h, s) ∈ recs → s ≠ [] → isValidSeq s = false →
      (h, s) ∉ (validateRecords recs).1 ∧ h ∈ (validateRecords recs).2) ∧
    (∀ seqs, ((cliProcess seqs).1).length = seqs.length) := by
  constructor
  · intro recs h s hmem hne hinv
    refine ⟨fun hcontra => ?_, validateRecords_report recs h s hmem hne hinv⟩
    have hval := validateRecords_valid recs (h, s) hcontra
    simp [hinv] at hval
  · intro seqs
    exact cliProcessAux_length seqs 1

/-- Witness for C1: the invalid record `('h', "XY")` is excluded and reported
by the web app's validation. -/
theorem claim1_witness :
    (("h".data, "XY".data) ∈ [("h".data, "XY".data)] ∧ "XY".data ≠ [] ∧
      isValidSeq "XY".data = false) ∧
    (("h".data, "XY".data) ∉ (validateRecords [("h".data, "XY".data)]).1 ∧
      "h".data ∈ (validateRecords [("h".data, "XY".data)]).2) :=
  ⟨⟨by decide, by decide, by decide⟩,
    claim1_reporting.1 [("h".data, "XY".data)] "h".data "XY".data
      (by decide) (by decide) (by decide)⟩

/-! ## C7: numbering of comma-separated pieces -/

theorem commaSubmitAux_eq (pieces : List (List Char)) : ∀ i,
    commaSubmitAux i pieces =
      (((numberFromSpec i pieces).filter (fun q => !q.2.isEmpty && isValidSeq q.2)).map
         (fun q => (seqUName q.1, q.2)),
       ((numberFromSpec i pieces).filter (fun q => !q.2.isEmpty && !isValidSeq q.2)).map
         (fun q => seqWName q.1)) := by
  induction pieces with
  | nil => intro i; rfl
  | cons s rest ih =>
    intro i
    by_cases he : s.isEmpty
    · simp [commaSubmitAux, numberFromSpec, List.filter_cons, he, ih (i + 1)]
    · by_cases hv : isValidSeq s
      · simp [commaSubmitAux, numberFromSpec, List.filter_cons, he, hv, ih (i + 1)]
      · simp [commaSubmitAux, numberFromSpec, List.filter_cons, he, hv, ih (i + 1)]

/-- C7: the comma grammar discards pieces that are empty after trimming, and
numbers the surviving pieces sequentially `Sequence_1, Sequence_2, …` by their
1-based position among the *non-empty* pieces (`numberFromSpec 1` over
`commaPieces`, the already-filtered list) — discarded pieces consume no
numbers, as the `"ATGC,,GGCC"` example shows; invalid pieces are reported
under the same numbering. -/
theorem claim7_numbering :
    (∀ text, commaSubmit text =
      (((numberFromSpec 1 (commaPieces text)).filter
          (fun q => !q.2.isEmpty && isValidSeq q.2)).map (fun q => (seqUName q.1, q.2)),
       ((numberFromSpec 1 (commaPieces text)).filter
          (fun q => !q.2.isEmpty && !isValidSeq q.2)).map (fun q => seqWName q.1))) ∧
    commaSubmit "ATGC, GGCC, XYZ".data =
      ([(seqUName 1, "ATGC".data), (seqUName 2, "GGCC".data)], [seqWName 3]) ∧
    commaSubmit "ATGC,,GGCC".data =
      ([(seqUName 1, "ATGC".data), (seqUName 2, "GGCC".data)], []) :=
  ⟨fun text => commaSubmitAux_eq (commaPieces text) 1, by decide, by decide⟩

/-! ## C10: header-less input through read_sequences -/

theorem rsa_no_header (ls : List (List Char)) :
    ∀ hdr cur, (∀ l ∈ ls, startsGt (pyStrip l) = false) →
    readSeqAux ls hdr cur =
      (if !(cur ++ (ls.map (fun l => upperStr (pyStrip l))).flatten).isEmpty
       then [(hdr, cur ++ (ls.map (fun l => upperStr (pyStrip l))).flatten)] else []) := by
  induction ls with
  | nil =>
    intro hdr cur h
    simp [readSeqAux]
  | cons l ls ih =>
    intro hdr cur h
    have hl := h l (List.mem_cons_self l ls)
    have hrest : ∀ x ∈ ls, startsGt (pyStrip x) = false :=
      fun x hx => h x (List.mem_cons_of_mem l hx)
    simp only [readSeqAux]
    by_cases h1 : (pyStrip l).isEmpty
    · rw [if_pos h1, ih hdr cur hrest]
      have hnil : pyStrip l = [] := List.isEmpty_iff.mp h1
      simp [hnil, upperStr]
    · rw [if_neg h1, if_neg (by simp [hl]), ih hdr (cur ++ upperStr (pyStrip l)) hrest]
      simp [List.append_assoc]

/-- C10: on input whose lines (after stripping) are not headers and at least
one of which is non-blank, `read_sequences` returns exactly one record, named
`None`, whose bases are the concatenation of the per-line-stripped, upper-cased
non-blank lines (blank lines contribute nothing to the flatten). -/
theorem claim10_headerless_parse (t : List Char)
    (h1 : ∀ l ∈ splitOnChar '\n' t, startsGt (pyStrip l) = false)
    (h2 : ∃ l ∈ splitOnChar '\n' t, pyStrip l ≠ []) :
    readSequences t =
      [(none, ((splitOnChar '\n' t).map (fun l => upperStr (pyStrip l))).flatten)] := by
  rw [readSequences, rsa_no_header _ none [] h1]
  obtain ⟨l, hl, hlne⟩ := h2
  have hfl : ((splitOnChar '\n' t).map (fun l => upperStr (pyStrip l))).flatten ≠ [] := by
    intro hf
    have hmem := List.flatten_eq_nil_iff.mp hf (upperStr (pyStrip l))
      (List.mem_map_of_mem _ hl)
    exact hlne (by simpa [upperStr] using hmem)
  have hie : (([] : List Char) ++
      ((splitOnChar '\n' t).map (fun l => upperStr (pyStrip l))).flatten).isEmpty = false := by
    simpa [List.isEmpty_eq_false] using hfl
  rw [hie]
  simp

/-- Witness for C10 at the input `"at\ngc"`. -/
theorem claim10_witness :
    (∀ l ∈ splitOnChar '\n' "at\ngc".data, startsGt (pyStrip l) = false) ∧
    (∃ l ∈ splitOnChar '\n' "at\ngc".data, pyStrip l ≠ []) ∧
    readSequences "at\ngc".data =
      [(none, ((splitOnChar '\n' "at\ngc".data).map (fun l => upperStr (pyStrip l))).flatten)] :=
  ⟨by decide, by decide, claim10_headerless_parse "at\ngc".data (by decide) (by decide)⟩

/-! ## C9: pasted FASTA text versus uploaded file -/

theorem map_isEmpty {α β : Type} (f : α → β) (l : List α) :
    (l.map f).isEmpty = l.isEmpty := by
  cases l <;> rfl

theorem cleanHeader_upper (h : List Char) :
    cleanHeader (upperStr h) = upperStr (cleanHeader h) := by
  rw [cleanHeader_eq_firstTokenSpec, cleanHeader_eq_firstTokenSpec]
  simp only [firstTokenSpec, upperStr, List.dropWhile_map, List.takeWhile_map,
    pyIsSpace_comp_pyUpper]
  rw [show ((fun c => !pyIsSpace c) ∘ pyUpper) = (fun c => !pyIsSpace c) from
    funext fun c => by simp [Function.comp, pyIsSpace_pyUpper]]

theorem flushC_upper (hdr : Option (List Char)) (sl : List (List Char)) :
    flushC (hdr.map upperStr) (sl.map upperStr) =
      (flushC hdr sl).map (fun p => (upperStr p.1, p.2)) := by
  cases hdr with
  | none => rfl
  | some h =>
    show flushC (some (upperStr h)) (sl.map upperStr) = _
    simp only [flushC, upperStr_isEmpty, map_isEmpty]
    by_cases hc : (!h.isEmpty && !sl.isEmpty) = true
    · rw [if_pos hc, if_pos hc]
      simp only [List.map_cons, List.map_nil, upperStr_flatten, upperStr_idem,
        cleanHeader_upper]
    · rw [if_neg hc, if_neg hc]
      rfl

theorem pfcU (ls : List (List Char)) : ∀ hdr sl,
    parseFastaAuxC (ls.map upperStr) (hdr.map upperStr) (sl.map upperStr) =
      (parseFastaAuxC ls hdr sl).map (fun p => (upperStr p.1, p.2)) := by
  induction ls with
  | nil => intro hdr sl; exact flushC_upper hdr sl
  | cons l ls ih =>
    intro hdr sl
    simp only [List.map_cons, parseFastaAuxC, pyStrip_upper, upperStr_isEmpty,
      startsGt_upper]
    by_cases h1 : (pyStrip l).isEmpty
    · rw [if_pos h1, if_pos h1]
      exact ih hdr sl
    · rw [if_neg h1, if_neg h1]
      by_cases h2 : startsGt (pyStrip l)
      · rw [if_pos h2, if_pos h2]
        rw [upperStr_drop, pyStrip_upper, List.map_append, flushC_upper]
        have := ih (some (pyStrip ((pyStrip l).drop 1))) []
        simp only [Option.map_some', List.map_nil] at this
        rw [this]
      · rw [if_neg h2, if_neg h2]
        have := ih hdr (sl ++ [removeSpaces (pyStrip l)])
        rw [List.map_append] at this
        simp only [List.map_cons, List.map_nil, removeSpaces_upper, pyStrip_upper] at this ⊢
        exact this

theorem validateRecords_map_name (f : List Char → List Char)
    (l : List (List Char × List Char)) :
    validateRecords (l.map (fun p => (f p.1, p.2))) =
      ((validateRecords l).1.map (fun p => (f p.1, p.2)), (validateRecords l).2.map f) := by
  induction l with
  | nil => rfl
  | cons p rest ih =>
    obtain ⟨ph, ps⟩ := p
    by_cases he : ps.isEmpty
    · simp [validateRecords, he, ih]
    · by_cases hv : isValidSeq ps
      · simp [validateRecords, he, hv, ih]
      · simp [validateRecords, he, hv, ih]

/-- C9 counterexample: on the FASTA text `">seq\natgc"`, the pasted-text path
upper-cases the whole input before parsing (name `"SEQ"`), while the
uploaded-file path parses the raw content (name `"seq"`): the two paths do not
yield the same ordered records. -/
theorem claim9_counterexample :
    (submitSequences ">seq\natgc".data).1 = [("SEQ".data, "ATGC".data)] ∧
    (uploadProcess ">seq\natgc".data).1 = [("seq".data, "ATGC".data)] ∧
    (submitSequences ">seq\natgc".data).1 ≠ (uploadProcess ">seq\natgc".data).1 :=
  ⟨by decide, by decide, by decide⟩

/-- C9 (amended): for every raw text whose stripped form starts with `>`, the
pasted-text path produces exactly the uploaded-file path's ordered records
with the *names* upper-cased (bases and validity filtering agree). -/
theorem claim9_amended (raw : List Char) (h : startsGt (pyStrip raw) = true) :
    (submitSequences raw).1 =
      ((uploadProcess raw).1).map (fun p => (upperStr p.1, p.2)) := by
  have htext : startsGt (upperStr (pyStrip raw)) = true := by
    rw [startsGt_upper]
    exact h
  rw [submitSequences, if_pos htext]
  have hpf : parseFasta (upperStr (pyStrip raw)) =
      (parseFasta raw).map (fun p => (upperStr p.1, p.2)) := by
    rw [parseFasta, parseFasta]
    have h1 : pyStrip (upperStr (pyStrip raw)) = upperStr (pyStrip raw) := by
      rw [pyStrip_upper, pyStrip_idem]
    rw [h1, splitOnChar_upper]
    exact pfcU (splitOnChar '\n' (pyStrip raw)) none []
  rw [hpf, uploadProcess, validateRecords_map_name]

/-- Witness for C9 at the input `">SEQ\nATGC"` (no lower-case letters). -/
theorem claim9_witness :
    startsGt (pyStrip ">SEQ\nATGC".data) = true ∧
    (submitSequences ">SEQ\nATGC".data).1 =
      ((uploadProcess ">SEQ\nATGC".data).1).map (fun p => (upperStr p.1, p.2)) :=
  ⟨by decide, claim9_amended ">SEQ\nATGC".data (by decide)⟩
